import Mathlib

/-!
Verification of the voicescribe text-processing pipeline.

The definitions below are a shallow embedding of the Python sources
`src/utils/summarizer.py` (class `HuggingFaceSummarizer`) and
`src/utils/transcription.py` (class `WhisperTranscriber`).  The external
HuggingFace tokenizer and the two model capabilities (summarization
pipeline, Whisper model) are opaque injected dependencies in the source;
here they are parameters of the embedded functions.  Machine strings are
modelled as Lean `String` (lists of characters); Python `re` operations
used by the source are embedded as explicit character-list scanners with
the same semantics on the pattern instances the source uses.
-/

set_option maxRecDepth 10000

/-- Characters treated as whitespace by Python `str.strip` / `\s`
(restricted to the ASCII whitespace occurring in this pipeline). -/
def isWS (c : Char) : Bool := c.isWhitespace

/-- Python `str.strip()`: drop whitespace from both ends. -/
def pstrip (s : String) : String :=
  String.mk (((s.data.dropWhile isWS).reverse.dropWhile isWS).reverse)

/-- Sentence-terminator characters of the regex class `[.!?]`. -/
def isTermChar (c : Char) : Bool := c = '.' || c = '!' || c = '?'

/-- Word characters of the regex class `\w` (ASCII reading). -/
def isWordChar (c : Char) : Bool := c.isAlphanum || c = '_'

/-- Python substring containment `pat in s`, on character lists. -/
def containsSub (pat : List Char) (s : List Char) : Bool :=
  match s with
  | [] => pat.isEmpty
  | _ :: rest => pat.isPrefixOf s || containsSub pat rest

/-- Auxiliary scanner for `re.split(r'[.!?]+', text)`: `acc` is the
reversed portion of the current piece, `inRun` records whether the scan
is inside a maximal run of terminators (so further terminators extend
the same separator instead of opening new empty pieces). -/
def splitTermAux : List Char → List Char → Bool → List (List Char)
  | [], acc, _ => [acc.reverse]
  | c :: rest, acc, inRun =>
    if isTermChar c then
      if inRun then splitTermAux rest acc true
      else acc.reverse :: splitTermAux rest [] true
    else splitTermAux rest (c :: acc) false

/-- `re.split(r'[.!?]+', text)`: split on maximal runs of sentence
terminators (empty pieces included, as in Python). -/
def splitTerm (s : String) : List String :=
  (splitTermAux s.data [] false).map String.mk

/-- The tokenizer capability used by `HuggingFaceSummarizer`:
`encode(text, truncation=False)`, `encode(text, max_length=n,
truncation=True)` and `decode(tokens)`. -/
structure Tok where
  encode : String → List Nat
  encodeTrunc : String → Nat → List Nat
  decode : List Nat → String

/-- One iteration of the sentence-accumulation loop in
`HuggingFaceSummarizer.chunk_text` (source lines 73-88).  The
accumulator is `(chunks, current_chunk)`. -/
def chunkStep (tok : Tok) (maxLength : Nat) (acc : List String × String)
    (sentence : String) : List String × String :=
  let test := acc.2 ++ sentence ++ ". "
  if (tok.encode test).length ≤ maxLength then (acc.1, test)
  else if acc.2 ≠ "" then (acc.1 ++ [pstrip acc.2], sentence ++ ". ")
  else (acc.1 ++ [tok.decode (tok.encodeTrunc sentence maxLength)], acc.2)

/-- `HuggingFaceSummarizer.chunk_text` (source lines 46-93), with the
tokenizer passed explicitly.  The `except` fallback of the source is
unreachable here because the embedded tokenizer is a total function. -/
def chunk_text (tok : Tok) (text : String) (maxLength : Nat) : List String :=
  if (tok.encode text).length ≤ maxLength then [text]
  else
    let sentences := splitTerm text
    let acc := sentences.foldl (chunkStep tok maxLength) ([], "")
    if acc.2 ≠ "" then acc.1 ++ [pstrip acc.2] else acc.1

/-- `HuggingFaceSummarizer.get_length_params` (source lines 186-203).
The Python test `"Short" in length_setting` is substring containment. -/
def get_length_params (length_setting : String) : Nat × Nat :=
  if containsSub "Short".data length_setting.data then (10, 50)
  else if containsSub "Medium".data length_setting.data then (50, 150)
  else if containsSub "Long".data length_setting.data then (100, 300)
  else (50, 150)

/-- A concrete tokenizer instance used for witnesses and
counterexamples: one token per character, truncation keeps the first
`n` characters. -/
def ctok : Tok where
  encode s := s.data.map Char.toNat
  encodeTrunc s n := (s.data.take n).map Char.toNat
  decode l := String.mk (l.map Char.ofNat)

/-- Characters that survive terminator-and-whitespace erasure: the
text content that `chunk_text` is expected to preserve. -/
def keepPW (c : Char) : Bool := !(isTermChar c) && !(isWS c)

/-- Erase sentence terminators and whitespace from a string. -/
def rmPW (s : String) : List Char := s.data.filter keepPW

/-- Erase whitespace from a string (any whitespace normalization of two
strings can only agree when these erasures agree). -/
def rmWS (s : String) : List Char := s.data.filter (fun c => !(isWS c))

/-- Scanner for `re.sub(r'\s+', ' ', text)`: collapse each maximal
whitespace run into one space (`inRun` is true inside a run). -/
def collapseWSAux : List Char → Bool → List Char
  | [], _ => []
  | c :: rest, inRun =>
    if isWS c then
      if inRun then collapseWSAux rest true
      else ' ' :: collapseWSAux rest true
    else c :: collapseWSAux rest false

/-- Characters kept by `re.sub(r'[^\w\s\.\,\!\?\;]', '', text)`. -/
def keepClean (c : Char) : Bool :=
  isWordChar c || isWS c || c = '.' || c = ',' || c = '!' || c = '?' || c = ';'

/-- Scanner for `re.sub(r'([a-z])([A-Z])', r'\1. \2', text)`: both
matched characters are consumed, so scanning resumes after the
uppercase character. -/
def insertDots : List Char → List Char
  | [] => []
  | [c] => [c]
  | a :: b :: rest =>
    if a.isLower && b.isUpper then a :: '.' :: ' ' :: b :: insertDots rest
    else a :: insertDots (b :: rest)

/-- `HuggingFaceSummarizer.clean_text` (source lines 165-184): collapse
whitespace, drop special characters, separate lowercase-uppercase
boundaries with `". "`, then strip. -/
def clean_text (text : String) : String :=
  pstrip (String.mk (insertDots ((collapseWSAux text.data false).filter keepClean)))

/-- The per-run summary configuration dictionary: keys `length`,
`style`, `focus` (values are the UI strings compared against in
`post_process_summary`). -/
structure Config where
  length : String
  style : String
  focus : String

/-- `HuggingFaceSummarizer.format_as_bullets` (source lines 238-248). -/
def format_as_bullets (text : String) : String :=
  let bullets := (splitTerm text).filterMap (fun sentence =>
    let s := pstrip sentence
    if s ≠ "" ∧ s.length > 10 then some ("• " ++ s) else none)
  String.intercalate "\n" bullets

/-- `HuggingFaceSummarizer.format_as_executive_summary` (source lines
250-252). -/
def format_as_executive_summary (text : String) : String :=
  "**Executive Summary:**\n\n" ++ text

/-- Case-insensitive match of the lowercase pattern `w` at the head of
`cs`; returns the matched span (original casing) and the remainder. -/
def matchCI : List Char → List Char → Option (List Char × List Char)
  | [], cs => some ([], cs)
  | _ :: _, [] => none
  | a :: ws, c :: cs =>
    if c.toLower = a then
      match matchCI ws cs with
      | some (m, rest) => some (c :: m, rest)
      | none => none
    else none

/-- The zero-width `\b` test between the previous character (none at
the string edge) and a word character position. -/
def boundaryOk : Option Char → Bool
  | none => true
  | some c => !(isWordChar c)

/-- Scanner for `re.sub(f'\\b{word}\\b', f'**{word}**', text,
flags=re.IGNORECASE)`: non-overlapping left-to-right replacement; the
replacement is the lowercase keyword itself, as in the source f-string.
`prev` is the character before the current position in the original
text; `fuel` only bounds the recursion and is at least the text
length at every call. -/
def subWordAux (w : List Char) : Nat → Option Char → List Char → List Char
  | _, _, [] => []
  | 0, _, cs => cs
  | fuel + 1, prev, c :: cs =>
    if boundaryOk prev then
      match matchCI w (c :: cs) with
      | some (m, rest) =>
        if boundaryOk rest.head? then
          '*' :: '*' :: (w ++ '*' :: '*' :: subWordAux w fuel m.getLast? rest)
        else c :: subWordAux w fuel (some c) cs
      | none => c :: subWordAux w fuel (some c) cs
    else c :: subWordAux w fuel (some c) cs

/-- One keyword pass of `emphasize_key_points`. -/
def subWordCI (w : String) (text : String) : String :=
  String.mk (subWordAux w.data text.data.length none text.data)

/-- The fixed keyword list of `emphasize_key_points` (source line 257). -/
def key_words : List String :=
  ["important", "key", "main", "primary", "significant", "crucial"]

/-- `HuggingFaceSummarizer.emphasize_key_points` (source lines
254-262): sequential case-insensitive whole-word substitution, one
pass per keyword. -/
def emphasize_key_points (text : String) : String :=
  key_words.foldl (fun t w => subWordCI w t) text

/-- Specification-side single keyword pass, written from the amended
claim's words rather than from the source, for comparison with
`subWordAux`: a case-insensitive whole-word occurrence of the keyword
`w` is a maximal run of `\w` characters whose lowercase form equals
`w` (word boundaries exist exactly at the edges of maximal runs); each
such run is replaced by the lowercase keyword wrapped in `**`, and
every other character — other runs, and all non-word characters — is
kept unchanged in place.  `fuel` only bounds the recursion and is at
least the text length at every call. -/
def specPassAux (w : List Char) : Nat → List Char → List Char
  | _, [] => []
  | 0, cs => cs
  | fuel + 1, c :: cs' =>
    if isWordChar c then
      (if (c :: cs'.takeWhile isWordChar).map Char.toLower = w
        then '*' :: '*' :: (w ++ ['*', '*'])
        else c :: cs'.takeWhile isWordChar)
        ++ specPassAux w fuel (cs'.dropWhile isWordChar)
    else c :: specPassAux w fuel cs'

/-- String-level wrapper of `specPassAux`. -/
def emphasizeSpecPass (w : String) (text : String) : String :=
  String.mk (specPassAux w.data text.data.length text.data)

/-- Specification-side KeyPoints transform, written from the amended
claim's words: one whole-word wrap-and-lowercase pass per fixed
keyword, in the source's keyword order. -/
def emphasizeSpec (text : String) : String :=
  key_words.foldl (fun t w => emphasizeSpecPass w t) text

/-- Exact-literal match of `lit` at the head of `cs`, returning the
remainder. -/
def matchLit : List Char → List Char → Option (List Char)
  | [], cs => some cs
  | _ :: _, [] => none
  | l :: ls, c :: cs => if c = l then matchLit ls cs else none

/-- Try one obligation/decision pattern `[Cc]lit\w+` at the current
position: a two-case initial character, a literal, then a non-empty
maximal word-character run. Returns the matched span and remainder. -/
def tryPat (c1 c2 : Char) (lit : List Char) (cs : List Char) :
    Option (List Char × List Char) :=
  match cs with
  | [] => none
  | c :: cs' =>
    if c = c1 ∨ c = c2 then
      match matchLit lit cs' with
      | some rest =>
        let word := rest.takeWhile isWordChar
        if word = [] then none
        else some (c :: (lit ++ word), rest.drop word.length)
      | none => none
    else none

/-- `re.findall` for one such pattern: non-overlapping left-to-right
matches; `fuel` is at least the text length at every call. -/
def findAllAux (c1 c2 : Char) (lit : List Char) : Nat → List Char → List (List Char)
  | _, [] => []
  | 0, _ => []
  | fuel + 1, c :: cs =>
    match tryPat c1 c2 lit (c :: cs) with
    | some (m, rest) => m :: findAllAux c1 c2 lit fuel rest
    | none => findAllAux c1 c2 lit fuel cs

/-- `re.findall(pattern, text)` for one pattern, on strings. -/
def findAllPat (c1 c2 : Char) (lit : String) (text : String) : List String :=
  (findAllAux c1 c2 lit.data text.data.length text.data).map String.mk

/-- The five obligation patterns of `extract_action_items` (source
lines 267-273), as (upper initial, lower initial, literal rest). -/
def action_patterns : List (Char × Char × String) :=
  [('N', 'n', "eed to "), ('S', 's', "hould "), ('W', 'w', "ill "),
   ('M', 'm', "ust "), ('P', 'p', "lan to ")]

/-- `HuggingFaceSummarizer.extract_action_items` (source lines
264-283): collect all pattern matches; if any, replace the whole text
with a bulleted list under a header, else return the text unchanged. -/
def extract_action_items (text : String) : String :=
  let actions := action_patterns.foldl
    (fun acc p => acc ++ findAllPat p.1 p.2.1 p.2.2 text) []
  if actions ≠ [] then
    "**Action Items:**\n" ++ String.intercalate "\n" (actions.map (fun a => "• " ++ a))
  else text

/-- The four decision patterns of `extract_decisions` (source lines
288-293). -/
def decision_patterns : List (Char × Char × String) :=
  [('D', 'd', "ecided to "), ('A', 'a', "greed to "),
   ('C', 'c', "hose to "), ('R', 'r', "esolved to ")]

/-- `HuggingFaceSummarizer.extract_decisions` (source lines 285-303). -/
def extract_decisions (text : String) : String :=
  let decisions := decision_patterns.foldl
    (fun acc p => acc ++ findAllPat p.1 p.2.1 p.2.2 text) []
  if decisions ≠ [] then
    "**Decisions Made:**\n" ++ String.intercalate "\n" (decisions.map (fun d => "• " ++ d))
  else text

/-- `HuggingFaceSummarizer.post_process_summary` (source lines
205-236): style transform first (Paragraph is the identity), then
focus transform.  The internal `except` of the source is unreachable
because every transform here is a total function. -/
def post_process_summary (summary : String) (config : Config) : String :=
  let styled :=
    if config.style = "Bullet Points" then format_as_bullets summary
    else if config.style = "Executive Summary" then format_as_executive_summary summary
    else summary
  if config.focus = "Key Points" then emphasize_key_points styled
  else if config.focus = "Action Items" then extract_action_items styled
  else if config.focus = "Decisions Made" then extract_decisions styled
  else styled

/-- The body of the `try` block of `HuggingFaceSummarizer.summarize`
(source lines 110-159).  `model` is the injected summarization
pipeline: it takes a chunk and the (max_length, min_length) bounds and
either raises (`Except.error`) or returns the list of result records
(their `summary_text` fields).  `loaded` tells whether `load_model`
produced a pipeline (`self.summarizer is None` after reload). -/
def summarizeCore (tok : Tok) (model : String → Nat → Nat → Except String (List String))
    (loaded : Bool) (text : String) (config : Config) : Except String String :=
  if text = "" ∨ (pstrip text).length < 50 then
    Except.ok "Text too short to summarize effectively."
  else if loaded = false then
    Except.error "Failed to load summarization model"
  else
    let cleaned := clean_text text
    let lp := get_length_params config.length
    let chunks := chunk_text tok cleaned 1024
    let chunk_summaries := chunks.filterMap (fun c =>
      match model c lp.2 lp.1 with
      | Except.ok (s :: _) => some s
      | _ => none)
    if chunk_summaries = [] then Except.ok "Could not generate summary."
    else Except.ok (post_process_summary (String.intercalate " " chunk_summaries) config)

/-- `HuggingFaceSummarizer.summarize` (source lines 99-163): the
catch-all `except` turns any raised error into the returned string
`"Summarization failed: ..."`. -/
def summarize (tok : Tok) (model : String → Nat → Nat → Except String (List String))
    (loaded : Bool) (text : String) (config : Config) : String :=
  match summarizeCore tok model loaded text config with
  | Except.ok s => s
  | Except.error e => "Summarization failed: " ++ e

/-- A summarization model capability that fails on every chunk. -/
def failModel : String → Nat → Nat → Except String (List String) :=
  fun _ _ _ => Except.error "CUDA out of memory"

/-- The environment of `WhisperTranscriber.transcribe` (source lines
31-71): whether a path resolves (`os.path.exists`) and the loaded
Whisper model, if any; the model maps (path, language) to either a
raised error or the raw `result["text"]`. -/
structure WhisperEnv where
  pathExists : String → Bool
  model : Option (String → Option String → Except String String)

/-- The body of the `try` block of `WhisperTranscriber.transcribe`:
missing path raises `FileNotFoundError`, an unloadable model raises,
otherwise the transcript text is stripped and an empty result becomes
the "no speech" sentinel. -/
def transcribeCore (env : WhisperEnv) (path : String) (language : Option String) :
    Except String String :=
  if env.pathExists path = false then
    Except.error ("Audio file not found: " ++ path)
  else
    match env.model with
    | none => Except.error "Failed to load Whisper model"
    | some m =>
      match m path language with
      | Except.error e => Except.error e
      | Except.ok raw =>
        let t := pstrip raw
        if t = "" then Except.ok "No speech detected in the audio file."
        else Except.ok t

/-- `WhisperTranscriber.transcribe`: the catch-all `except` turns any
raised error into the returned string `"Transcription failed: ..."`. -/
def transcribe (env : WhisperEnv) (path : String) (language : Option String) : String :=
  match transcribeCore env path language with
  | Except.ok s => s
  | Except.error e => "Transcription failed: " ++ e

/-- A transcription environment with no resolvable path and no model. -/
def deadEnv : WhisperEnv where
  pathExists := fun _ => false
  model := none

/-- A transcription environment where paths resolve but the model
could not be loaded. -/
def noModelEnv : WhisperEnv where
  pathExists := fun _ => true
  model := none

/-- Dropping a prefix never lengthens a list. -/
theorem dropWhile_len_le {α : Type} (p : α → Bool) (l : List α) :
    (l.dropWhile p).length ≤ l.length := by
  induction l with
  | nil => simp [List.dropWhile]
  | cons c cs ih =>
    simp only [List.dropWhile_cons]
    split
    · exact Nat.le_succ_of_le ih
    · exact Nat.le_refl _

/-- The empty string is a left unit for append. -/
theorem str_empty_append (s : String) : "" ++ s = s :=
  String.ext (by simp [String.data_append])

/-- Filtering ignores a dropped prefix whose elements the filter
rejects anyway. -/
theorem filter_dropWhile {α : Type} (p keep : α → Bool) (l : List α)
    (h : ∀ c, p c = true → keep c = false) :
    (l.dropWhile p).filter keep = l.filter keep := by
  conv_rhs => rw [← List.takeWhile_append_dropWhile p l]
  rw [List.filter_append]
  have : (l.takeWhile p).filter keep = [] := by
    rw [List.filter_eq_nil_iff]
    intro a ha
    simp [h a (List.mem_takeWhile_imp ha)]
  rw [this, List.nil_append]

/-- `rmPW` on an explicit character list. -/
theorem rmPW_mk (l : List Char) : rmPW (String.mk l) = l.filter keepPW := rfl

/-- `rmPW` distributes over append. -/
theorem rmPW_append (a b : String) : rmPW (a ++ b) = rmPW a ++ rmPW b := by
  simp [rmPW, String.data_append, List.filter_append]

/-- The separator `". "` that the chunker inserts is erased by `rmPW`. -/
theorem rmPW_dot (s : String) : rmPW (s ++ ". ") = rmPW s := by
  rw [rmPW_append]
  have : rmPW ". " = [] := by decide
  simp [this]

/-- Python `strip` does not change the erased content. -/
theorem rmPW_pstrip (s : String) : rmPW (pstrip s) = rmPW s := by
  have hws : ∀ c, isWS c = true → keepPW c = false := by
    intro c hc; simp [keepPW, hc]
  show (((s.data.dropWhile isWS).reverse.dropWhile isWS).reverse).filter keepPW
      = s.data.filter keepPW
  rw [List.filter_reverse, filter_dropWhile _ _ _ hws, List.filter_reverse,
    List.reverse_reverse, filter_dropWhile _ _ _ hws]

/-- Filtering distributes over list flattening. -/
theorem filter_flatten {α : Type} (p : α → Bool) :
    ∀ L : List (List α), L.flatten.filter p = (L.map (List.filter p)).flatten := by
  intro L
  induction L with
  | nil => rfl
  | cons a L ih => simp [List.flatten_cons, List.filter_append, ih]

/-- The character data of a fold of string appends. -/
theorem foldl_append_data :
    ∀ (l : List String) (init : String),
      (l.foldl (· ++ ·) init).data = init.data ++ (l.map String.data).flatten := by
  intro l
  induction l with
  | nil => intro init; simp
  | cons s rest ih =>
    intro init
    rw [List.foldl_cons, ih, String.data_append]
    simp [List.flatten_cons]

/-- `rmPW` of a joined list of strings. -/
theorem rmPW_join (l : List String) :
    rmPW (String.join l) = (l.map rmPW).flatten := by
  show (String.join l).data.filter keepPW = _
  rw [String.join, foldl_append_data]
  have h0 : ("".data : List Char) = [] := rfl
  rw [h0, List.nil_append, filter_flatten, List.map_map]
  rfl

/-- Splitting on terminator runs preserves the erased content. -/
theorem splitTermAux_keep :
    ∀ (cs acc : List Char) (inRun : Bool),
      ((splitTermAux cs acc inRun).map (List.filter keepPW)).flatten
        = acc.reverse.filter keepPW ++ cs.filter keepPW := by
  intro cs
  induction cs with
  | nil => intro acc inRun; simp [splitTermAux]
  | cons c rest ih =>
    intro acc inRun
    by_cases hterm : isTermChar c = true
    · have hc : keepPW c = false := by simp [keepPW, hterm]
      cases inRun with
      | true => simp [splitTermAux, hterm, ih, List.filter_cons, hc]
      | false => simp [splitTermAux, hterm, ih, List.filter_cons, hc]
    · simp only [Bool.not_eq_true] at hterm
      by_cases hk : keepPW c = true
      · simp [splitTermAux, hterm, ih, List.filter_cons, List.filter_append, hk]
      · simp only [Bool.not_eq_true] at hk
        simp [splitTermAux, hterm, ih, List.filter_cons, List.filter_append, hk]

/-- The erased content of the sentence split equals that of the source
text. -/
theorem rmPW_splitTerm (s : String) :
    ((splitTerm s).map rmPW).flatten = s.data.filter keepPW := by
  show (((splitTermAux s.data [] false).map String.mk).map rmPW).flatten = _
  rw [List.map_map]
  have hcomp : rmPW ∘ String.mk = List.filter keepPW := by
    funext l; rfl
  rw [hcomp, splitTermAux_keep]
  simp

/-- The sentence-accumulation fold preserves the terminator-and-
whitespace-erased content, provided no sentence alone overflows the
budget (so the lossy truncation branch is never taken). -/
theorem chunkFold_keep (tok : Tok) (maxLen : Nat) :
    ∀ (sents chunks : List String) (current : String),
      (∀ s ∈ sents, (tok.encode (s ++ ". ")).length ≤ maxLen) →
      ((sents.foldl (chunkStep tok maxLen) (chunks, current)).1.map rmPW).flatten
          ++ rmPW (sents.foldl (chunkStep tok maxLen) (chunks, current)).2
        = (chunks.map rmPW).flatten ++ rmPW current ++ (sents.map rmPW).flatten := by
  intro sents
  induction sents with
  | nil => intro chunks current _; simp
  | cons s rest ih =>
    intro chunks current hs
    have hrest : ∀ t ∈ rest, (tok.encode (t ++ ". ")).length ≤ maxLen :=
      fun t ht => hs t (List.mem_cons_of_mem _ ht)
    have hhead : (tok.encode (s ++ ". ")).length ≤ maxLen :=
      hs s (List.mem_cons_self _ _)
    rw [List.foldl_cons]
    by_cases h1 : (tok.encode ((chunks, current).2 ++ s ++ ". ")).length ≤ maxLen
    · have hstep : chunkStep tok maxLen (chunks, current) s
          = (chunks, current ++ s ++ ". ") := by
        simp [chunkStep, h1]
      rw [hstep, ih _ _ hrest]
      have : rmPW (current ++ s ++ ". ") = rmPW current ++ rmPW s := by
        rw [rmPW_dot, rmPW_append]
      simp [this, List.append_assoc]
    · by_cases h2 : current = ""
      · exfalso
        apply h1
        have : (chunks, current).2 ++ s ++ ". " = s ++ ". " := by
          rw [h2]
          show ("" ++ s) ++ ". " = s ++ ". "
          rw [str_empty_append]
        rw [this]
        exact hhead
      · have hstep : chunkStep tok maxLen (chunks, current) s
            = (chunks ++ [pstrip current], s ++ ". ") := by
          simp [chunkStep, h1, h2]
        rw [hstep, ih _ _ hrest]
        have hps : rmPW (pstrip current) = rmPW current := rmPW_pstrip current
        have hsd : rmPW (s ++ ". ") = rmPW s := rmPW_dot s
        simp [hps, hsd, List.append_assoc]

/-- C2 counterexample: a text that chunks into more than one chunk,
with no sentence over the budget (so no truncation), whose chunk
concatenation differs from the source even after erasing all
whitespace: the terminators `!` and `?` are rewritten to `.` and an
extra `.` is appended. -/
theorem chunk_concat_not_lossless :
    (chunk_text ctok "Hello world! How are you? Fine." 13).length > 1
    ∧ ((splitTerm "Hello world! How are you? Fine.").all
        (fun s => (ctok.encode s).length ≤ 13)) = true
    ∧ rmWS (String.join (chunk_text ctok "Hello world! How are you? Fine." 13))
        ≠ rmWS "Hello world! How are you? Fine." := by
  decide

/-- C2 amended: when no single sentence overflows the budget (so the
truncation branch never fires), concatenating the chunks preserves the
source text up to whitespace AND sentence-terminator normalization:
every character that is neither whitespace nor one of `.`, `!`, `?` is
preserved in order. -/
theorem chunk_join_content (tok : Tok) (text : String) (maxLen : Nat)
    (h : ∀ s ∈ splitTerm text, (tok.encode (s ++ ". ")).length ≤ maxLen) :
    rmPW (String.join (chunk_text tok text maxLen)) = rmPW text := by
  by_cases htop : (tok.encode text).length ≤ maxLen
  · unfold chunk_text
    rw [if_pos htop, rmPW_join]
    simp
  · have hfold := chunkFold_keep tok maxLen (splitTerm text) [] "" h
    unfold chunk_text
    rw [if_neg htop]
    simp only []
    by_cases hcur :
        ((splitTerm text).foldl (chunkStep tok maxLen) ([], "")).2 = ""
    · rw [if_neg (by simpa using hcur)]
      rw [rmPW_join]
      rw [hcur] at hfold
      have hemp : rmPW "" = [] := rfl
      rw [hemp, List.append_nil] at hfold
      simp only [List.map_nil, List.flatten_nil, List.nil_append] at hfold
      rw [hfold, rmPW_splitTerm]
      rfl
    · rw [if_pos (by simpa using hcur)]
      rw [rmPW_join]
      simp only [List.map_append, List.map_cons, List.map_nil,
        List.flatten_append, List.flatten_cons, List.flatten_nil,
        List.append_nil, rmPW_pstrip]
      simp only [List.map_nil, List.flatten_nil, List.nil_append] at hfold
      have hemp : rmPW "" = [] := rfl
      rw [hemp, List.nil_append] at hfold
      rw [hfold, rmPW_splitTerm]
      rfl

/-- Witness for C2 amended at a concrete input. -/
theorem chunk_join_content_witness :
    rmPW (String.join (chunk_text ctok "Hello world! How are you? Fine." 20))
      = rmPW "Hello world! How are you? Fine." :=
  chunk_join_content ctok "Hello world! How are you? Fine." 20 (by decide)

/-- The character tokenizer never counts a stripped string as longer. -/
theorem ctok_strip_le (s : String) :
    (ctok.encode (pstrip s)).length ≤ (ctok.encode s).length := by
  show ((pstrip s).data.map Char.toNat).length ≤ (s.data.map Char.toNat).length
  simp only [List.length_map]
  show (((s.data.dropWhile isWS).reverse.dropWhile isWS).reverse).length
      ≤ s.data.length
  rw [List.length_reverse]
  calc ((s.data.dropWhile isWS).reverse.dropWhile isWS).length
      ≤ (s.data.dropWhile isWS).reverse.length := dropWhile_len_le _ _
    _ = (s.data.dropWhile isWS).length := List.length_reverse _
    _ ≤ s.data.length := dropWhile_len_le _ _

/-- C3 counterexample: an over-long sentence that follows a non-empty
running chunk is emitted as its own chunk without truncation, so a
chunk can exceed the token budget. -/
theorem chunk_text_over_budget :
    "cdefghij." ∈ chunk_text ctok "ab. cdefghij. kl." 5
    ∧ (ctok.encode "cdefghij.").length = 9
    ∧ ¬((ctok.encode "cdefghij.").length ≤ 5) := by
  decide

/-- The sentence-accumulation fold keeps every closed chunk within the
budget when every sentence fits the budget and stripping cannot grow
the token count. -/
theorem chunkFold_le (tok : Tok) (maxLen : Nat)
    (htrim : ∀ s, (tok.encode (pstrip s)).length ≤ (tok.encode s).length) :
    ∀ (sents chunks : List String) (current : String),
      (∀ s ∈ sents, (tok.encode (s ++ ". ")).length ≤ maxLen) →
      (∀ c ∈ chunks, (tok.encode c).length ≤ maxLen) →
      (current = "" ∨ (tok.encode current).length ≤ maxLen) →
      (∀ c ∈ (sents.foldl (chunkStep tok maxLen) (chunks, current)).1,
          (tok.encode c).length ≤ maxLen) ∧
      ((sents.foldl (chunkStep tok maxLen) (chunks, current)).2 = "" ∨
        (tok.encode
          (sents.foldl (chunkStep tok maxLen) (chunks, current)).2).length
            ≤ maxLen) := by
  intro sents
  induction sents with
  | nil => intro chunks current _ hchunks hcur; exact ⟨hchunks, hcur⟩
  | cons s rest ih =>
    intro chunks current hs hchunks hcur
    have hrest : ∀ t ∈ rest, (tok.encode (t ++ ". ")).length ≤ maxLen :=
      fun t ht => hs t (List.mem_cons_of_mem _ ht)
    have hhead : (tok.encode (s ++ ". ")).length ≤ maxLen :=
      hs s (List.mem_cons_self _ _)
    rw [List.foldl_cons]
    by_cases h1 : (tok.encode ((chunks, current).2 ++ s ++ ". ")).length ≤ maxLen
    · have hstep : chunkStep tok maxLen (chunks, current) s
          = (chunks, current ++ s ++ ". ") := by
        simp [chunkStep, h1]
      rw [hstep]
      exact ih _ _ hrest hchunks (Or.inr h1)
    · by_cases h2 : current = ""
      · exfalso
        apply h1
        have heq : (chunks, current).2 ++ s ++ ". " = s ++ ". " := by
          rw [h2]
          show ("" ++ s) ++ ". " = s ++ ". "
          rw [str_empty_append]
        rw [heq]
        exact hhead
      · have hstep : chunkStep tok maxLen (chunks, current) s
            = (chunks ++ [pstrip current], s ++ ". ") := by
          simp [chunkStep, h1, h2]
        rw [hstep]
        apply ih _ _ hrest
        · intro c hc
          rcases List.mem_append.mp hc with hin | hin
          · exact hchunks c hin
          · have hceq : c = pstrip current := by simpa using hin
            subst hceq
            rcases hcur with hcur | hcur
            · exact absurd hcur h2
            · exact le_trans (htrim current) hcur
        · exact Or.inr hhead

/-- C3 amended: every emitted chunk respects the budget PROVIDED every
sentence (with the re-inserted `". "`) fits the budget and stripping
cannot grow the count; and when an over-long sentence is met while the
running chunk is empty it is truncated at token level rather than
failing (concrete second conjunct: the 8-token sentence is cut to 5
tokens, the run succeeds). -/
theorem chunk_text_bounded :
    (∀ (tok : Tok) (text : String) (maxLen : Nat),
      (∀ s, (tok.encode (pstrip s)).length ≤ (tok.encode s).length) →
      (∀ s ∈ splitTerm text, (tok.encode (s ++ ". ")).length ≤ maxLen) →
      ∀ c ∈ chunk_text tok text maxLen, (tok.encode c).length ≤ maxLen)
    ∧ chunk_text ctok "cdefghij. kl." 5 = ["cdefg", "kl.", "."] := by
  constructor
  · intro tok text maxLen htrim hs c hc
    by_cases htop : (tok.encode text).length ≤ maxLen
    · unfold chunk_text at hc
      rw [if_pos htop] at hc
      have : c = text := by simpa using hc
      subst this
      exact htop
    · have hfold := chunkFold_le tok maxLen htrim (splitTerm text) [] ""
        hs (by simp) (Or.inl rfl)
      unfold chunk_text at hc
      rw [if_neg htop] at hc
      simp only [] at hc
      by_cases hcur :
          ((splitTerm text).foldl (chunkStep tok maxLen) ([], "")).2 = ""
      · rw [if_neg (by simpa using hcur)] at hc
        exact hfold.1 c hc
      · rw [if_pos (by simpa using hcur)] at hc
        rcases List.mem_append.mp hc with hin | hin
        · exact hfold.1 c hin
        · have hceq : c = pstrip
              ((splitTerm text).foldl (chunkStep tok maxLen) ([], "")).2 := by
            simpa using hin
          subst hceq
          rcases hfold.2 with hz | hz
          · exact absurd hz hcur
          · exact le_trans (htrim _) hz
  · decide

/-- Witness for C3 amended: the first chunk of a concrete run is within
the budget. -/
theorem chunk_text_bounded_witness : (ctok.encode "ab.").length ≤ 5 :=
  chunk_text_bounded.1 ctok "ab. cd." 5 ctok_strip_le (by decide) "ab." (by decide)

/-- C7: the length-bounds function maps Short to (10,50), Medium to
(50,150), Long to (100,300), and both components are strictly
increasing along Short < Medium < Long. -/
theorem get_length_params_spec :
    get_length_params "Short" = (10, 50) ∧
    get_length_params "Medium" = (50, 150) ∧
    get_length_params "Long" = (100, 300) ∧
    10 < 50 ∧ 50 < 100 ∧ 50 < 150 ∧ 150 < 300 := by
  decide

/-- C8: for every text whose token count is at most `maxLength`,
`chunk_text` returns exactly the one-element list holding the input
text; in particular the result is nonempty. -/
theorem chunk_text_single (tok : Tok) (text : String) (maxLength : Nat)
    (h : (tok.encode text).length ≤ maxLength) :
    chunk_text tok text maxLength = [text] ∧ chunk_text tok text maxLength ≠ [] := by
  unfold chunk_text
  rw [if_pos h]
  exact ⟨rfl, by simp⟩

/-- Witness for C8 at a concrete input. -/
theorem chunk_text_single_witness :
    chunk_text ctok "hello" 10 = ["hello"] ∧ chunk_text ctok "hello" 10 ≠ [] :=
  chunk_text_single ctok "hello" 10 (by decide)

/-- C4: the ActionItems focus on the scenario text (style Paragraph is
the identity) yields a bulleted list under the "Action Items" header
whose bullet is exactly the span matched by the obligation patterns
(`[Nn]eed to \w+` captures one following word: "need to finalize"),
and the first sentence is discarded. -/
theorem action_items_scenario :
    post_process_summary
        "This is a very important decision. We need to finalize it by Friday."
        ⟨"Medium", "Paragraph", "Action Items"⟩
      = "**Action Items:**\n• need to finalize"
    ∧ ("**Action Items:**\n".data.isPrefixOf
        (post_process_summary
          "This is a very important decision. We need to finalize it by Friday."
          ⟨"Medium", "Paragraph", "Action Items"⟩).data) = true
    ∧ containsSub "need to finalize".data
        (post_process_summary
          "This is a very important decision. We need to finalize it by Friday."
          ⟨"Medium", "Paragraph", "Action Items"⟩).data = true
    ∧ containsSub "very important decision".data
        (post_process_summary
          "This is a very important decision. We need to finalize it by Friday."
          ⟨"Medium", "Paragraph", "Action Items"⟩).data = false := by
  decide

/-- C6 counterexample: the replacement is the lowercase keyword from
the pattern f-string, so the original casing of the matched occurrence
is NOT preserved: "Important" becomes "**important**". -/
theorem emphasize_casing_lost :
    emphasize_key_points "Important" = "**important**"
    ∧ emphasize_key_points "Important" ≠ "**Important**" := by
  decide

/-- `Char.toLower` only changes ASCII uppercase letters. -/
theorem toLower_of_not_upper (c : Char) (hu : c.isUpper = false) : c.toLower = c := by
  unfold Char.toLower
  rw [if_neg]
  intro hc
  have h1 : c.isUpper = true := by
    simp only [Char.isUpper, Bool.and_eq_true, decide_eq_true_eq]
    exact ⟨hc.1, hc.2⟩
  rw [hu] at h1
  exact Bool.noConfusion h1

/-- A character whose lowercase form is a word character is itself a
word character. -/
theorem isWordChar_of_toLower (x c : Char) (hx : isWordChar x = true)
    (h : c.toLower = x) : isWordChar c = true := by
  cases hu : c.isUpper with
  | true => simp [isWordChar, Char.isAlphanum, Char.isAlpha, hu]
  | false =>
    rw [toLower_of_not_upper c hu] at h
    rw [h]
    exact hx

/-- `takeWhile` passes over a prefix it accepts entirely. -/
theorem takeWhile_append_of_all {α : Type} (p : α → Bool) :
    ∀ (xs ys : List α), (∀ x ∈ xs, p x = true) →
      (xs ++ ys).takeWhile p = xs ++ ys.takeWhile p := by
  intro xs
  induction xs with
  | nil => intro ys _; simp
  | cons a l ih =>
    intro ys h
    have ha := h a (List.mem_cons_self _ _)
    simp [List.takeWhile_cons, ha, ih ys (fun x hx => h x (List.mem_cons_of_mem _ hx))]

/-- `dropWhile` drops a prefix it accepts entirely. -/
theorem dropWhile_append_of_all {α : Type} (p : α → Bool) :
    ∀ (xs ys : List α), (∀ x ∈ xs, p x = true) →
      (xs ++ ys).dropWhile p = ys.dropWhile p := by
  intro xs
  induction xs with
  | nil => intro ys _; simp
  | cons a l ih =>
    intro ys h
    have ha := h a (List.mem_cons_self _ _)
    simp [List.dropWhile_cons, ha, ih ys (fun x hx => h x (List.mem_cons_of_mem _ hx))]

/-- Soundness of `matchCI`: a match splits the input and its matched
span case-folds to the pattern. -/
theorem matchCI_some (w : List Char) :
    ∀ (cs m rest : List Char), matchCI w cs = some (m, rest) →
      cs = m ++ rest ∧ m.map Char.toLower = w := by
  induction w with
  | nil =>
    intro cs m rest h
    simp [matchCI] at h
    obtain ⟨h1, h2⟩ := h
    subst h1
    subst h2
    exact ⟨rfl, rfl⟩
  | cons a ws ih =>
    intro cs m rest h
    cases cs with
    | nil => simp [matchCI] at h
    | cons c cs' =>
      by_cases hc : c.toLower = a
      · cases hm : matchCI ws cs' with
        | none => simp [matchCI, hc, hm] at h
        | some pr =>
          obtain ⟨m', rest'⟩ := pr
          simp [matchCI, hc, hm] at h
          obtain ⟨h1, h2⟩ := h
          subst h1
          subst h2
          obtain ⟨hs, hmap⟩ := ih cs' m' rest' hm
          constructor
          · rw [hs]
            rfl
          · simp [hmap, hc]
      · simp [matchCI, hc] at h

/-- Completeness of `matchCI`: any split whose head case-folds to the
pattern is matched. -/
theorem matchCI_complete : ∀ (m w rest : List Char),
    m.map Char.toLower = w → matchCI w (m ++ rest) = some (m, rest) := by
  intro m
  induction m with
  | nil =>
    intro w rest h
    rw [← h]
    rfl
  | cons c m' ih =>
    intro w rest h
    rw [← h]
    simp [matchCI, ih (m'.map Char.toLower) rest rfl]

/-- `matchCI` fails on a non-word first character (the patterns used
are made of word characters). -/
theorem matchCI_none_of_nonword (w : List Char) (hw0 : w ≠ [])
    (hw1 : ∀ x ∈ w, isWordChar x = true) (c : Char) (hc : isWordChar c = false)
    (cs : List Char) : matchCI w (c :: cs) = none := by
  cases w with
  | nil => exact absurd rfl hw0
  | cons a ws =>
    have hne : ¬(c.toLower = a) := by
      intro he
      have hcw := isWordChar_of_toLower a c (hw1 a (List.mem_cons_self _ _)) he
      rw [hc] at hcw
      exact Bool.noConfusion hcw
    simp [matchCI, hne]

/-- A nonempty list has a last element, and it is a member. -/
theorem getLast?_of_ne_nil {α : Type} (l : List α) (h : l ≠ []) :
    ∃ x, l.getLast? = some x ∧ x ∈ l :=
  ⟨l.getLast h, List.getLast?_eq_getLast l h, List.getLast_mem h⟩

/-- `specPassAux` is independent of the fuel once the fuel covers the
input length. -/
theorem specPassAux_fuel (w : List Char) :
    ∀ (n : Nat) (cs : List Char) (m : Nat), cs.length ≤ n → cs.length ≤ m →
      specPassAux w n cs = specPassAux w m cs := by
  intro n
  induction n with
  | zero =>
    intro cs m h1 _
    have hcs : cs = [] := List.length_eq_zero.mp (Nat.le_zero.mp h1)
    subst hcs
    cases m <;> rfl
  | succ n ih =>
    intro cs m h1 h2
    cases cs with
    | nil => cases m <;> rfl
    | cons c cs' =>
      cases m with
      | zero => simp at h2
      | succ m =>
        have h1' : cs'.length ≤ n := Nat.le_of_succ_le_succ (by simpa using h1)
        have h2' : cs'.length ≤ m := Nat.le_of_succ_le_succ (by simpa using h2)
        by_cases hc : isWordChar c = true
        · have hd : (cs'.dropWhile isWordChar).length ≤ n :=
            le_trans (dropWhile_len_le _ _) h1'
          have hd2 : (cs'.dropWhile isWordChar).length ≤ m :=
            le_trans (dropWhile_len_le _ _) h2'
          simp [specPassAux, hc, ih _ _ hd hd2]
        · simp [specPassAux, hc, ih _ _ h1' h2']

/-- The source scanner for one keyword pass agrees everywhere with the
specification-side pass: at a word boundary it behaves like
`specPassAux`; in the middle of a word run it copies the rest of the
run and then behaves like `specPassAux`. -/
theorem subWordAux_spec (w : List Char) (hw0 : w ≠ [])
    (hw1 : ∀ x ∈ w, isWordChar x = true) :
    ∀ (fuel : Nat) (prev : Option Char) (cs : List Char), cs.length ≤ fuel →
      subWordAux w fuel prev cs =
        if boundaryOk prev = true then specPassAux w cs.length cs
        else cs.takeWhile isWordChar
          ++ specPassAux w ((cs.dropWhile isWordChar).length) (cs.dropWhile isWordChar) := by
  intro fuel
  induction fuel with
  | zero =>
    intro prev cs hlen
    have hcs : cs = [] := List.length_eq_zero.mp (Nat.le_zero.mp hlen)
    subst hcs
    cases hb : boundaryOk prev <;> simp [subWordAux, specPassAux, hb]
  | succ fuel ih =>
    intro prev cs hlen
    cases cs with
    | nil => cases hb : boundaryOk prev <;> simp [subWordAux, specPassAux, hb]
    | cons c cs' =>
      have hlen' : cs'.length ≤ fuel := Nat.le_of_succ_le_succ (by simpa using hlen)
      by_cases hb : boundaryOk prev = true
      · rw [if_pos hb]
        by_cases hc : isWordChar c = true
        · cases hm : matchCI w (c :: cs') with
          | none =>
            have hlhs : subWordAux w (fuel + 1) prev (c :: cs')
                = c :: subWordAux w fuel (some c) cs' := by
              simp [subWordAux, hb, hm]
            have hrun : ¬((c :: cs'.takeWhile isWordChar).map Char.toLower = w) := by
              intro heq
              have hdec : (c :: cs')
                  = (c :: cs'.takeWhile isWordChar) ++ cs'.dropWhile isWordChar := by
                simp [List.takeWhile_append_dropWhile]
              have hcomp := matchCI_complete (c :: cs'.takeWhile isWordChar) w
                (cs'.dropWhile isWordChar) heq
              rw [← hdec, hm] at hcomp
              exact Option.noConfusion hcomp
            have hfuel : specPassAux w ((cs'.dropWhile isWordChar).length)
                  (cs'.dropWhile isWordChar)
                = specPassAux w cs'.length (cs'.dropWhile isWordChar) :=
              specPassAux_fuel w _ _ _ (le_refl _) (dropWhile_len_le _ _)
            have hrun2 : ¬(c.toLower :: (cs'.takeWhile isWordChar).map Char.toLower = w) := by
              simpa using hrun
            rw [hlhs, ih (some c) cs' hlen', if_neg (by simp [boundaryOk, hc]), hfuel]
            simp [specPassAux, hc, hrun2]
          | some pr =>
            obtain ⟨m, rest⟩ := pr
            obtain ⟨hsplit, hmap⟩ := matchCI_some w (c :: cs') m rest hm
            have hmne : m ≠ [] := by
              intro h0
              rw [h0] at hmap
              exact hw0 (by simpa using hmap.symm)
            have hmword : ∀ x ∈ m, isWordChar x = true := by
              intro x hx
              exact isWordChar_of_toLower x.toLower x
                (hw1 _ (hmap ▸ List.mem_map_of_mem _ hx)) rfl
            obtain ⟨m0, mtl, rfl⟩ : ∃ m0 mtl, m = m0 :: mtl := by
              cases m with
              | nil => exact absurd rfl hmne
              | cons m0 mtl => exact ⟨m0, mtl, rfl⟩
            obtain ⟨hc0, hcs'⟩ : c = m0 ∧ cs' = mtl ++ rest := by
              simpa using hsplit
            subst hc0
            subst hcs'
            have hmtlword : ∀ x ∈ mtl, isWordChar x = true :=
              fun x hx => hmword x (List.mem_cons_of_mem _ hx)
            by_cases hb2 : boundaryOk rest.head? = true
            · have hlhs : subWordAux w (fuel + 1) prev (c :: (mtl ++ rest))
                  = '*' :: '*' :: (w ++ '*' :: '*' ::
                      subWordAux w fuel ((c :: mtl).getLast?) rest) := by
                simp [subWordAux, hb, hm, hb2]
              obtain ⟨lastc, hlast, hlastmem⟩ := getLast?_of_ne_nil (c :: mtl) (by simp)
              have hlw : isWordChar lastc = true := hmword lastc hlastmem
              have hrlen : rest.length ≤ fuel := by
                have h1 := hlen
                simp [List.length_append] at h1
                omega
              have hrtw : rest.takeWhile isWordChar = [] ∧ rest.dropWhile isWordChar = rest := by
                cases rest with
                | nil => simp
                | cons r rs =>
                  have hr : isWordChar r = false := by simpa [boundaryOk] using hb2
                  simp [List.takeWhile_cons, List.dropWhile_cons, hr]
              have htw : (mtl ++ rest).takeWhile isWordChar = mtl := by
                rw [takeWhile_append_of_all _ mtl rest hmtlword, hrtw.1, List.append_nil]
              have hdw : (mtl ++ rest).dropWhile isWordChar = rest := by
                rw [dropWhile_append_of_all _ mtl rest hmtlword, hrtw.2]
              have hrun : (c :: (mtl ++ rest).takeWhile isWordChar).map Char.toLower = w := by
                rw [htw]
                exact hmap
              have hfuel : specPassAux w ((mtl ++ rest).length) rest
                  = specPassAux w rest.length rest :=
                specPassAux_fuel w _ _ _
                  (by simp [List.length_append]) (le_refl _)
              have hrun2 : c.toLower :: ((mtl ++ rest).takeWhile isWordChar).map Char.toLower
                  = w := by
                simpa using hrun
              rw [hlhs, hlast, ih (some lastc) rest hrlen,
                if_neg (by simp [boundaryOk, hlw]), hrtw.1, hrtw.2]
              simp [specPassAux, hc, hrun2, hdw, hfuel]
              exact specPassAux_fuel w _ _ _ (le_refl _) (Nat.le_add_left _ _)
            · have hlhs : subWordAux w (fuel + 1) prev (c :: (mtl ++ rest))
                  = c :: subWordAux w fuel (some c) (mtl ++ rest) := by
                simp [subWordAux, hb, hm, hb2]
              obtain ⟨r, rs, rfl⟩ : ∃ r rs, rest = r :: rs := by
                cases rest with
                | nil => exact absurd (by simp [boundaryOk]) hb2
                | cons r rs => exact ⟨r, rs, rfl⟩
              have hrw : isWordChar r = true := by
                simp [boundaryOk] at hb2
                exact hb2
              have hneq : ¬((c :: (mtl ++ r :: rs).takeWhile isWordChar).map Char.toLower = w) := by
                intro heq
                have htw2 : (mtl ++ r :: rs).takeWhile isWordChar
                    = mtl ++ r :: rs.takeWhile isWordChar := by
                  rw [takeWhile_append_of_all _ mtl _ hmtlword]
                  simp [List.takeWhile_cons, hrw]
                have hlen1 := congrArg List.length heq
                have hlen2 := congrArg List.length hmap
                rw [htw2] at hlen1
                simp [List.length_append] at hlen1 hlen2
                omega
              have hfuel : specPassAux w (((mtl ++ r :: rs).dropWhile isWordChar).length)
                    ((mtl ++ r :: rs).dropWhile isWordChar)
                  = specPassAux w ((mtl ++ r :: rs).length)
                    ((mtl ++ r :: rs).dropWhile isWordChar) :=
                specPassAux_fuel w _ _ _ (le_refl _) (dropWhile_len_le _ _)
              have hneq2 : ¬(c.toLower :: ((mtl ++ r :: rs).takeWhile isWordChar).map Char.toLower
                  = w) := by
                simpa using hneq
              rw [hlhs, ih (some c) (mtl ++ r :: rs) hlen',
                if_neg (by simp [boundaryOk, hc]), hfuel]
              simp [specPassAux, hc, hneq2]
        · have hmnone := matchCI_none_of_nonword w hw0 hw1 c (by simpa using hc) cs'
          have hlhs : subWordAux w (fuel + 1) prev (c :: cs')
              = c :: subWordAux w fuel (some c) cs' := by
            simp [subWordAux, hb, hmnone]
          rw [hlhs, ih (some c) cs' hlen', if_pos (by simp [boundaryOk, hc])]
          simp [specPassAux, hc]
      · have hbf : boundaryOk prev = false := by simpa using hb
        rw [if_neg hb]
        have hlhs : subWordAux w (fuel + 1) prev (c :: cs')
            = c :: subWordAux w fuel (some c) cs' := by
          simp [subWordAux, hbf]
        by_cases hc : isWordChar c = true
        · rw [hlhs, ih (some c) cs' hlen', if_neg (by simp [boundaryOk, hc])]
          simp [List.takeWhile_cons, List.dropWhile_cons, hc]
        · rw [hlhs, ih (some c) cs' hlen', if_pos (by simp [boundaryOk, hc])]
          simp [List.takeWhile_cons, List.dropWhile_cons, hc, specPassAux]

/-- String-level form of `subWordAux_spec` for one keyword pass. -/
theorem subWordCI_spec (w text : String) (hw0 : w.data ≠ [])
    (hw1 : ∀ x ∈ w.data, isWordChar x = true) :
    subWordCI w text = emphasizeSpecPass w text := by
  show String.mk (subWordAux w.data text.data.length none text.data) = _
  rw [subWordAux_spec w.data hw0 hw1 text.data.length none text.data (le_refl _)]
  rfl

/-- C6 amended: for EVERY text, the KeyPoints transform equals the
specification-side transform written from the amended claim's words —
each case-insensitive whole-word keyword occurrence (maximal word run
whose lowercase form is the keyword) is wrapped in emphasis markers
and rendered as the lowercase keyword, and all other characters are
returned unchanged in place.  The concrete conjunct shows the
wrapping and lowercasing on mixed-case occurrences of three
keywords. -/
theorem emphasize_amended :
    (∀ text : String, emphasize_key_points text = emphasizeSpec text)
    ∧ emphasize_key_points "The Important and CRUCIAL key point"
        = "The **important** and **crucial** **key** point" := by
  constructor
  · intro text
    show subWordCI "crucial" (subWordCI "significant" (subWordCI "primary"
        (subWordCI "main" (subWordCI "key" (subWordCI "important" text)))))
      = emphasizeSpecPass "crucial" (emphasizeSpecPass "significant" (emphasizeSpecPass "primary"
        (emphasizeSpecPass "main" (emphasizeSpecPass "key" (emphasizeSpecPass "important" text)))))
    rw [subWordCI_spec "important" _ (by decide) (by decide),
      subWordCI_spec "key" _ (by decide) (by decide),
      subWordCI_spec "main" _ (by decide) (by decide),
      subWordCI_spec "primary" _ (by decide) (by decide),
      subWordCI_spec "significant" _ (by decide) (by decide),
      subWordCI_spec "crucial" _ (by decide) (by decide)]
  · decide

/-- C9: any text whose stripped length is under 50 characters makes
`summarize` return the fixed too-short message, for EVERY model
capability (so the model is never consulted). -/
theorem summarize_too_short (tok : Tok)
    (model : String → Nat → Nat → Except String (List String))
    (loaded : Bool) (text : String) (config : Config)
    (h : (pstrip text).length < 50) :
    summarize tok model loaded text config
      = "Text too short to summarize effectively." := by
  have hcore : summarizeCore tok model loaded text config
      = Except.ok "Text too short to summarize effectively." := by
    unfold summarizeCore
    rw [if_pos (Or.inr h)]
  unfold summarize
  rw [hcore]

/-- Witness for C9 at a concrete short input. -/
theorem summarize_too_short_witness :
    summarize ctok failModel true "hi" ⟨"Short", "Paragraph", "General"⟩
      = "Text too short to summarize effectively." :=
  summarize_too_short ctok failModel true "hi" ⟨"Short", "Paragraph", "General"⟩
    (by decide)

/-- C1 counterexample: with a model that fails on every chunk,
`summarize` RETURNS the ordinary string "Could not generate summary."
(the core yields it as a normal `ok` result, not a raised error), so
the all-chunks-fail case does not raise. -/
theorem summarize_all_fail_no_raise :
    summarize ctok failModel true
        "aaaaaaaaaa bbbbbbbbbb cccccccccc dddddddddd eeeeeeeeee"
        ⟨"Medium", "Paragraph", "General"⟩
      = "Could not generate summary."
    ∧ summarizeCore ctok failModel true
        "aaaaaaaaaa bbbbbbbbbb cccccccccc dddddddddd eeeeeeeeee"
        ⟨"Medium", "Paragraph", "General"⟩
      = Except.ok "Could not generate summary." :=
  ⟨by decide, rfl⟩

/-- C1 amended: when every per-chunk summarization call fails, the
overall `summarize` call returns the fixed string "Could not generate
summary." as an ordinary result (failed chunks are skipped; nothing is
raised). -/
theorem summarize_all_fail (tok : Tok)
    (model : String → Nat → Nat → Except String (List String))
    (text : String) (config : Config)
    (hlen : ¬(text = "" ∨ (pstrip text).length < 50))
    (hfail : ∀ c mn mx, ∃ e, model c mn mx = Except.error e) :
    summarize tok model true text config = "Could not generate summary." := by
  have hnil : (chunk_text tok (clean_text text) 1024).filterMap (fun c =>
      match model c (get_length_params config.length).2
          (get_length_params config.length).1 with
      | Except.ok (s :: _) => some s
      | _ => none) = [] := by
    rw [List.filterMap_eq_nil_iff]
    intro c _
    obtain ⟨e, he⟩ := hfail c (get_length_params config.length).2
      (get_length_params config.length).1
    rw [he]
  have hcore : summarizeCore tok model true text config
      = Except.ok "Could not generate summary." := by
    unfold summarizeCore
    rw [if_neg hlen, if_neg (by simp)]
    simp [hnil]
  unfold summarize
  rw [hcore]

/-- Witness for C1 amended at a concrete long input and the
always-failing model. -/
theorem summarize_all_fail_witness :
    summarize ctok failModel true
        "The quarterly meeting covered budget planning and hiring goals."
        ⟨"Short", "Paragraph", "General"⟩
      = "Could not generate summary." :=
  summarize_all_fail ctok failModel
    "The quarterly meeting covered budget planning and hiring goals."
    ⟨"Short", "Paragraph", "General"⟩ (by decide)
    (fun c mn mx => ⟨"CUDA out of memory", rfl⟩)

/-- The try-block body of `summarize` can only end four ways. -/
theorem summarizeCore_cases (tok : Tok)
    (model : String → Nat → Nat → Except String (List String))
    (loaded : Bool) (text : String) (config : Config) :
    summarizeCore tok model loaded text config
        = Except.ok "Text too short to summarize effectively."
    ∨ summarizeCore tok model loaded text config
        = Except.ok "Could not generate summary."
    ∨ (∃ e, summarizeCore tok model loaded text config = Except.error e)
    ∨ (∃ ss : List String, ss ≠ [] ∧
        summarizeCore tok model loaded text config
          = Except.ok (post_process_summary (String.intercalate " " ss) config)) := by
  simp only [summarizeCore]
  by_cases h1 : text = "" ∨ (pstrip text).length < 50
  · left
    rw [if_pos h1]
  · rw [if_neg h1]
    by_cases h2 : loaded = false
    · right; right; left
      exact ⟨_, by rw [if_pos h2]⟩
    · rw [if_neg h2]
      split
      next h3 =>
        right; left
        rfl
      next h3 =>
        right; right; right
        exact ⟨_, h3, rfl⟩

/-- C10: `summarize` is total at its interface: whatever the inputs
and however the injected model behaves, the result is the too-short
message, the fixed "Could not generate summary." string, a string
beginning with "Summarization failed: " (the caught internal raise),
or a post-processed joined summary — never a propagated exception. -/
theorem summarize_total_interface (tok : Tok)
    (model : String → Nat → Nat → Except String (List String))
    (loaded : Bool) (text : String) (config : Config) :
    summarize tok model loaded text config
        = "Text too short to summarize effectively."
    ∨ summarize tok model loaded text config = "Could not generate summary."
    ∨ (∃ e, summarize tok model loaded text config = "Summarization failed: " ++ e)
    ∨ (∃ ss : List String, ss ≠ [] ∧
        summarize tok model loaded text config
          = post_process_summary (String.intercalate " " ss) config) := by
  rcases summarizeCore_cases tok model loaded text config with
    h | h | ⟨e, h⟩ | ⟨ss, hne, h⟩
  · left
    unfold summarize
    rw [h]
  · right; left
    unfold summarize
    rw [h]
  · right; right; left
    exact ⟨e, by unfold summarize; rw [h]⟩
  · right; right; right
    exact ⟨ss, hne, by unfold summarize; rw [h]⟩

/-- C5 counterexample: both failure conditions are caught inside
`transcribe` and surface to the caller as ordinarily returned
"Transcription failed: ..." strings, not as propagated typed errors. -/
theorem transcribe_failure_strings :
    transcribe deadEnv "missing.wav" none
      = "Transcription failed: Audio file not found: missing.wav"
    ∧ transcribe noModelEnv "a.wav" none
      = "Transcription failed: Failed to load Whisper model"
    ∧ transcribeCore deadEnv "missing.wav" none
      = Except.error "Audio file not found: missing.wav" :=
  ⟨by decide, by decide, rfl⟩

/-- C5 amended: an unresolved path raises `FileNotFoundError` and an
unavailable model raises a load failure inside the try block, but
`transcribe` catches both and returns the corresponding
"Transcription failed: ..." string to the caller. -/
theorem transcribe_amended (env : WhisperEnv) (path : String) (lang : Option String) :
    (env.pathExists path = false →
      transcribeCore env path lang
          = Except.error ("Audio file not found: " ++ path)
      ∧ transcribe env path lang
          = "Transcription failed: " ++ ("Audio file not found: " ++ path))
    ∧ (env.pathExists path = true → env.model = none →
      transcribeCore env path lang = Except.error "Failed to load Whisper model"
      ∧ transcribe env path lang
          = "Transcription failed: Failed to load Whisper model") := by
  constructor
  · intro h
    have hcore : transcribeCore env path lang
        = Except.error ("Audio file not found: " ++ path) := by
      unfold transcribeCore
      rw [if_pos h]
    exact ⟨hcore, by unfold transcribe; rw [hcore]⟩
  · intro hpath hmodel
    have hcore : transcribeCore env path lang
        = Except.error "Failed to load Whisper model" := by
      unfold transcribeCore
      rw [if_neg (by rw [hpath]; exact fun hc => Bool.noConfusion hc), hmodel]
    refine ⟨hcore, ?_⟩
    unfold transcribe
    rw [hcore]
    rfl

/-- Witness for C5 amended at a concrete environment and path. -/
theorem transcribe_amended_witness :
    transcribeCore deadEnv "f.wav" none
      = Except.error ("Audio file not found: " ++ "f.wav")
    ∧ transcribe deadEnv "f.wav" none
      = "Transcription failed: " ++ ("Audio file not found: " ++ "f.wav") :=
  (transcribe_amended deadEnv "f.wav" none).1 rfl
